import Mathlib

/-!
Verification development for the semantic document chunking engine of the
notebooklm repository (src/chunking.py).

Python strings are embedded as `List Char` (`Str`), character indices and
line numbers as `Nat`, and the floating-point similarity values produced by
the embedding collaborator as `ℚ` (the external embedding service itself is
an opaque collaborator; the adjacent-pair cosine values it induces are taken
as inputs of the boundary scan).  Python floats appear with their genuine
IEEE behaviour only in `cosine_similarity`, where `Option ℝ` makes the NaN
produced by a zero denominator explicit (`none` = NaN).  Fallible calls to
the external metadata service are `Except` values supplied by an oracle
parameter, one per attempt.
-/

namespace NotebookLM

/-- Python strings are modelled as lists of characters. -/
abbrev Str := List Char

/-- Model of Python's whitespace class `\s` (ASCII range), used by
`str.strip`, `str.split` and the regular expressions of chunking.py. -/
def isSpace (c : Char) : Bool :=
  c = ' ' || c = '\t' || c = '\n' || c = '\r' || c = '\x0b' || c = '\x0c'

/-- Model of Python `str.lstrip()`. -/
def lstrip (l : Str) : Str := l.dropWhile isSpace

/-- Model of Python `str.rstrip()`. -/
def rstrip (l : Str) : Str := (l.reverse.dropWhile isSpace).reverse

/-- Model of Python `str.strip()`. -/
def strip (l : Str) : Str := rstrip (lstrip l)

theorem dropWhile_length_le (p : Char → Bool) (l : Str) :
    (l.dropWhile p).length ≤ l.length := by
  induction l with
  | nil => simp [List.dropWhile]
  | cons c cs ih =>
    simp only [List.dropWhile]
    split
    · exact Nat.le_succ_of_le ih
    · exact Nat.le_refl _

theorem head?_dropWhile (p : Char → Bool) (l : Str) :
    ∀ x, (l.dropWhile p).head? = some x → p x = false := by
  induction l with
  | nil => intro x h; simp [List.dropWhile] at h
  | cons c cs ih =>
    intro x h
    simp only [List.dropWhile] at h
    cases hc : p c with
    | true => rw [hc] at h; exact ih x h
    | false =>
      rw [hc] at h
      simp only [List.head?_cons, Option.some.injEq] at h
      subst h
      exact hc

theorem dropWhile_eq_self_of_head (p : Char → Bool) (l : Str) (x : Char)
    (h : l.head? = some x) (hx : p x = false) : l.dropWhile p = l := by
  cases l with
  | nil => rfl
  | cons c cs =>
    simp only [List.head?_cons, Option.some.injEq] at h
    subst h
    simp [List.dropWhile, hx]

theorem rstrip_decomp (l : Str) :
    l = rstrip l ++ (l.reverse.takeWhile isSpace).reverse := by
  unfold rstrip
  conv_lhs => rw [← l.reverse_reverse, ← List.takeWhile_append_dropWhile isSpace l.reverse]
  rw [List.reverse_append]

theorem rstrip_head? (l : Str) (h : rstrip l ≠ []) :
    l.head? = (rstrip l).head? := by
  conv_lhs => rw [rstrip_decomp l]
  rw [List.head?_append]
  cases hh : (rstrip l).head? with
  | none => exact absurd (List.head?_eq_none_iff.mp hh) h
  | some y => simp

theorem rstrip_getLast? (l : Str) :
    ∀ x, (rstrip l).getLast? = some x → isSpace x = false := by
  intro x h
  unfold rstrip at h
  rw [List.getLast?_reverse] at h
  exact head?_dropWhile isSpace l.reverse x h

theorem rstrip_eq_self_of_getLast (l : Str) (x : Char)
    (h : l.getLast? = some x) (hx : isSpace x = false) : rstrip l = l := by
  unfold rstrip
  rw [dropWhile_eq_self_of_head isSpace l.reverse x (by rw [List.head?_reverse]; exact h) hx,
    List.reverse_reverse]

theorem strip_idem (l : Str) : strip (strip l) = strip l := by
  by_cases hne : strip l = []
  · rw [hne]; rfl
  · have hl : lstrip l ≠ [] := by
      intro hc
      apply hne
      unfold strip
      rw [hc]
      rfl
    have hhead : (strip l).head? = (lstrip l).head? := (rstrip_head? (lstrip l) hne).symm
    have hlast : ∀ x, (strip l).getLast? = some x → isSpace x = false :=
      rstrip_getLast? (lstrip l)
    cases hh : (lstrip l).head? with
    | none => exact absurd (List.head?_eq_none_iff.mp hh) hl
    | some y =>
      have hy : isSpace y = false := head?_dropWhile isSpace l y hh
      have h1 : lstrip (strip l) = strip l :=
        dropWhile_eq_self_of_head isSpace (strip l) y (hhead.trans hh) hy
      cases hg : (strip l).getLast? with
      | none => exact absurd (List.getLast?_eq_none_iff.mp hg) hne
      | some z =>
        have hz : isSpace z = false := hlast z hg
        unfold strip
        rw [show lstrip (rstrip (lstrip l)) = rstrip (lstrip l) from h1]
        exact rstrip_eq_self_of_getLast _ z hg hz

theorem rstrip_length_le (l : Str) : (rstrip l).length ≤ l.length := by
  unfold rstrip
  rw [List.length_reverse]
  calc (l.reverse.dropWhile isSpace).length ≤ l.reverse.length :=
        dropWhile_length_le isSpace l.reverse
    _ = l.length := List.length_reverse l

theorem strip_length_le (l : Str) : (strip l).length ≤ l.length :=
  Nat.le_trans (rstrip_length_le (lstrip l)) (dropWhile_length_le isSpace l)

/-- Character offsets of the starts of all lines of `s`, continued from
offset `i`; chunking.py lines 109-112 record `i + 1` for every newline. -/
def lineOffsetsGo : Str → Nat → List Nat
  | [], _ => []
  | c :: cs, i =>
    if c = '\n' then (i + 1) :: lineOffsetsGo cs (i + 1) else lineOffsetsGo cs (i + 1)

/-- Model of the `line_offsets` table of chunking.py (lines 108-112): offset 0
followed by the offset just after every newline character. -/
def line_offsets (s : Str) : List Nat := 0 :: lineOffsetsGo s 0

/-- Model of `get_line_number` (chunking.py lines 114-117):
`bisect.bisect_right(line_offsets, char_index)` on the sorted offset table
equals the number of offsets that are `≤ char_index`. -/
def get_line_number (offsets : List Nat) (char_index : Nat) : Nat :=
  offsets.countP fun o => decide (o ≤ char_index)

theorem get_line_number_pos (s : Str) (ci : Nat) :
    1 ≤ get_line_number (line_offsets s) ci := by
  unfold get_line_number line_offsets
  rw [List.countP_cons]
  simp

theorem get_line_number_mono (offsets : List Nat) (a b : Nat) (h : a ≤ b) :
    get_line_number offsets a ≤ get_line_number offsets b := by
  unfold get_line_number
  refine List.countP_mono_left fun x _ hx => ?_
  simp only [decide_eq_true_eq] at hx ⊢
  exact Nat.le_trans hx h

/-- Length of the longest all-whitespace prefix of `l`. -/
def wsRun : Str → Nat
  | [] => 0
  | c :: cs => if isSpace c then wsRun cs + 1 else 0

/-- Index of the last newline strictly inside the first `r` characters of
`u`, if any.  This is the position where the greedy `\s*` of the separator
pattern backtracks to let the final `\n` match. -/
def lastNlBefore (u : Str) (r : Nat) : Option Nat :=
  ((List.range r).filter fun j => decide (u.getD j ' ' = '\n')).getLast?

/-- Model of searching `re` pattern `\n\s*\n` from absolute position `i` of
the document, where `t` is the document's suffix starting at `i`:  a match
starts at the first newline that is followed, within its whitespace run, by
another newline; the greedy `\s*` extends the match to the last such
newline.  Returns the (start, end) character span of the match. -/
def findSep : Str → Nat → Option (Nat × Nat)
  | [], _ => none
  | c :: u, i =>
    if c = '\n' then
      match lastNlBefore u (wsRun u) with
      | some j => some (i, i + j + 2)
      | none => findSep u (i + 1)
    else findSep u (i + 1)

/-- All non-overlapping matches of `\n\s*\n` in `s` from position `p` on,
scanned left to right as `re.finditer` does (chunking.py line 122).  The
fuel argument bounds the number of matches; `s.length` is always enough. -/
def findSepsGo (s : Str) : Nat → Nat → List (Nat × Nat)
  | 0, _ => []
  | fuel + 1, p =>
    match findSep (s.drop p) p with
    | none => []
    | some (a, b) => (a, b) :: findSepsGo s fuel b

/-- All blank-line separator matches of the document. -/
def findSeps (s : Str) : List (Nat × Nat) := findSepsGo s s.length 0

/-- Model of the part-collection loop of chunking.py lines 120-129: the text
between consecutive separator matches, kept with its character span, plus
the trailing text after the last separator. -/
def partsGo (content : Str) : List (Nat × Nat) → Nat → List (Nat × Nat × Str)
  | [], last_end =>
    if last_end < content.length then
      [(last_end, content.length, content.drop last_end)]
    else []
  | (ms, me) :: rest, last_end =>
    (if last_end < ms then
       [(last_end, ms, (content.drop last_end).take (ms - last_end))]
     else []) ++ partsGo content rest me

/-- The blank-line separated parts of the document, with original character
offsets (chunking.py lines 119-129). -/
def splitParts (content : Str) : List (Nat × Nat × Str) :=
  partsGo content (findSeps content) 0

/-- Sentence-terminating punctuation of the split pattern `(?<=[.!?])\s+`. -/
def isSentPunct (c : Char) : Bool := c = '.' || c = '!' || c = '?'

/-- Model of `re.split(r'(?<=[.!?])\s+', part)` (chunking.py line 182): a
separator is a maximal whitespace run whose preceding character is sentence
punctuation; the pieces between separators are returned (a trailing
separator leaves an empty final piece, as in Python). -/
def sentSplitGo (prev : Char) (acc : Str) : Str → List Str
  | [] => [acc.reverse]
  | c :: rest =>
    if isSpace c && isSentPunct prev then
      acc.reverse :: sentSplitGo ' ' [] (rest.dropWhile isSpace)
    else sentSplitGo c (c :: acc) rest
termination_by l => l.length
decreasing_by
  all_goals simp only [List.length_cons]
  all_goals first
    | exact Nat.lt_succ_of_le (dropWhile_length_le _ _)
    | exact Nat.lt_succ_self _

/-- Sentence pieces of a paragraph. -/
def sentSplit (part : Str) : List Str := sentSplitGo 'a' [] part

/-- Model of Python `hay.find(needle, start)` (chunking.py line 190): the
least index `i ≥ start` at which `needle` occurs in `hay`, if any. -/
def strFind (hay needle : Str) (start : Nat) : Option Nat :=
  ((List.range (hay.length + 1)).filter fun i =>
    decide (start ≤ i) && needle.isPrefixOf (hay.drop i)).head?

/-- The `"type"` tag of a unit dict: `"header"`, `"table"` or `"text"`. -/
inductive UnitKind where
  | header
  | table
  | text
deriving DecidableEq

/-- Model of the unit dicts produced by `get_markdown_units`. -/
structure MdUnit where
  text : Str
  kind : UnitKind
  header_path : Str
  line_start : Nat
  line_end : Nat
deriving DecidableEq

/-- Breadcrumb `" > ".flatten(h[1] for h in header_stack)`; our stack keeps the
innermost header first, so it is reversed to Python's append order. -/
def joinPath (stack : List (Nat × Str)) : Str :=
  List.intercalate " > ".toList (stack.reverse.map Prod.snd)

/-- Model of the sentence-unit loop of chunking.py lines 183-207, carrying
`current_rel_pos` through the list of sentence pieces. -/
def sentenceUnitsGo (offsets : List Nat) (part : Str) (real_start : Nat) (hp : Str) :
    Nat → List Str → List MdUnit
  | _, [] => []
  | pos, s :: rest =>
    if (strip s).isEmpty then
      sentenceUnitsGo offsets part real_start hp (pos + s.length) rest
    else
      let st := strip s
      let fp := (strFind part st pos).getD pos
      let s0 := real_start + fp
      ⟨st, .text, hp, get_line_number offsets s0,
        get_line_number offsets (s0 + st.length - 1)⟩ ::
        sentenceUnitsGo offsets part real_start hp (fp + st.length) rest

/-- Model of one iteration of the part loop of chunking.py lines 134-215:
the units emitted for this part and the updated header stack. -/
def partToUnits (offsets : List Nat) (lpl : Nat) (stack : List (Nat × Str))
    (start_offset : Nat) (part : Str) : List MdUnit × List (Nat × Str) :=
  let lstripped := lstrip part
  let leading_ws := part.length - lstripped.length
  let real_start := start_offset + leading_ws
  let st := rstrip lstripped
  let real_end := real_start + st.length
  if st.isEmpty then ([], stack)
  else
    let l0 := get_line_number offsets real_start
    let l1 := get_line_number offsets (real_end - 1)
    if st.headD ' ' = '#' then
      let level := (st.takeWhile fun c => !isSpace c).length
      let header_text := strip (st.dropWhile fun c => c = '#')
      let stack2 := (level, header_text) :: (stack.dropWhile fun p => decide (level ≤ p.1))
      ([⟨st, .header, joinPath stack2, l0, l1⟩], stack2)
    else
      let hp := joinPath stack
      if st.headD ' ' = '|' then ([⟨st, .table, hp, l0, l1⟩], stack)
      else if lpl < st.length then
        (sentenceUnitsGo offsets st real_start hp 0 (sentSplit st), stack)
      else ([⟨st, .text, hp, l0, l1⟩], stack)

/-- The part loop itself, threading the header stack. -/
def getUnitsGo (offsets : List Nat) (lpl : Nat) :
    List (Nat × Nat × Str) → List (Nat × Str) → List MdUnit
  | [], _ => []
  | (s, _e, p) :: rest, stack =>
    let r := partToUnits offsets lpl stack s p
    r.1 ++ getUnitsGo offsets lpl rest r.2

/-- Model of `get_markdown_units` (chunking.py lines 104-217) at a given
`long_paragraph_length` configuration. -/
def get_markdown_units (content : Str) (lpl : Nat) : List MdUnit :=
  getUnitsGo (line_offsets content) lpl (splitParts content) []

/-- Kernel-computable rational addition (extensionally the field addition of
`ℚ`, spelled through `Rat.divInt` so that concrete witnesses evaluate). -/
def qadd (a b : ℚ) : ℚ :=
  Rat.divInt (a.num * (b.den : Int) + b.num * (a.den : Int)) ((a.den : Int) * (b.den : Int))

/-- Kernel-computable rational subtraction. -/
def qsub (a b : ℚ) : ℚ :=
  Rat.divInt (a.num * (b.den : Int) - b.num * (a.den : Int)) ((a.den : Int) * (b.den : Int))

/-- Kernel-computable rational multiplication. -/
def qmul (a b : ℚ) : ℚ := Rat.divInt (a.num * b.num) ((a.den : Int) * (b.den : Int))

/-- Model of `np.percentile(similarities, 40)` (chunking.py line 269) with
numpy's default linear interpolation between order statistics: for the
ascending sorted scores `s` of length `m`, the virtual index is
`h = 0.4 * (m - 1)`, and the result interpolates between `s[⌊h⌋]` and
`s[⌊h⌋ + 1]`.  Exact rational arithmetic stands in for float arithmetic. -/
def percentile40 (l : List ℚ) : ℚ :=
  let s := List.insertionSort (· ≤ ·) l
  let m := s.length
  let h : ℚ := Rat.divInt (2 * ((m : Int) - 1)) 5
  let i : Nat := h.floor.toNat
  let g : ℚ := qsub h (Rat.divInt (i : Int) 1)
  if i + 1 < m then qadd (s.getD i 0) (qmul g (qsub (s.getD (i + 1) 0) (s.getD i 0)))
  else s.getD i 0

/-- Model of the chunk dicts produced by `chunk_text`. -/
structure Chunk where
  content : Str
  header_path : Str
  line_ranges : List (Nat × Nat)
deriving DecidableEq

/-- Ordering of line ranges by their start, the sort key
`lambda x: x[0]` of chunking.py line 234. -/
def leStart (a b : Nat × Nat) : Prop := a.1 ≤ b.1

instance : DecidableRel leStart := fun a b => Nat.decLe a.1 b.1

instance : IsTotal (Nat × Nat) leStart := ⟨fun a b => Nat.le_total a.1 b.1⟩

instance : IsTrans (Nat × Nat) leStart := ⟨fun _ _ _ => Nat.le_trans⟩

/-- Model of the interval-merging loop of chunking.py lines 236-244, run on
the sorted tail with the current open interval `(cs, ce)`. -/
def mergeGo (cs ce : Nat) : List (Nat × Nat) → List (Nat × Nat)
  | [] => [(cs, ce)]
  | (s, e) :: rest =>
    if s ≤ ce + 1 then mergeGo cs (max ce e) rest
    else (cs, ce) :: mergeGo s e rest

/-- Model of `get_chunk_line_ranges` (chunking.py lines 226-245): collect the
units' line spans, sort them by start (Python's stable sort is modelled by
insertion sort, which is stable), and merge adjacent or overlapping
intervals. -/
def get_chunk_line_ranges (chunk_units : List MdUnit) : List (Nat × Nat) :=
  match List.insertionSort leStart (chunk_units.map fun u => (u.line_start, u.line_end)) with
  | [] => []
  | r0 :: rest => mergeGo r0.1 r0.2 rest

/-- Model of `"\n\n".flatten(u["text"] for u in units)` (chunking.py line 288). -/
def joinTexts : List MdUnit → Str
  | [] => []
  | [u] => u.text
  | u :: v :: rest => u.text ++ '\n' :: '\n' :: joinTexts (v :: rest)

/-- Accumulated text length of the open chunk (chunking.py line 281): the sum
over its units of text length plus 2 separator characters. -/
def clen (us : List MdUnit) : Nat := (us.map fun u => u.text.length + 2).sum

/-- The chunk dict emitted when a group of units is closed (chunking.py
lines 288-296 and 307-314). -/
def mkChunk (us : List MdUnit) : Chunk :=
  ⟨joinTexts us, (us.headD ⟨[], .text, [], 0, 0⟩).header_path, get_chunk_line_ranges us⟩

/-- Model of the boundary scan of chunking.py lines 271-316: fold over the
similarity/next-unit pairs with the emitted chunks accumulated in `acc` and
the open chunk in `cur`; the final open chunk is flushed after the scan
(guarded by `if current_chunk_units:` as in line 306). -/
def scanGo (MIN MAX : Nat) (θ : ℚ) (acc : List Chunk) (cur : List MdUnit) :
    List (ℚ × MdUnit) → List Chunk
  | [] => acc ++ if cur.isEmpty then [] else [mkChunk cur]
  | (sim, next) :: rest =>
    if (sim < θ ∧ MIN ≤ clen cur) ∨ MAX < clen cur + next.text.length then
      let seed :=
        match cur.getLast? with
        | some last => if last.kind ≠ .header then [last, next] else [next]
        | none => [next]
      scanGo MIN MAX θ (acc ++ [mkChunk cur]) seed rest
    else scanGo MIN MAX θ acc (cur ++ [next]) rest

/-- Model of `chunk_text` (chunking.py lines 219-316) together with a flag
recording whether the embedding request of line 255 was issued.  The
adjacent-pair cosine scores the embeddings induce are abstracted as the
`sims` input (one per adjacent unit pair when the embedding service honours
its index-alignment contract). -/
def chunk_textC (MIN MAX : Nat) (sims : List ℚ) (units : List MdUnit) :
    List Chunk × Bool :=
  match units with
  | [] => ([], false)
  | [u] => ([⟨u.text, u.header_path, get_chunk_line_ranges [u]⟩], false)
  | u0 :: u1 :: rest =>
    if sims.isEmpty then
      ((u0 :: u1 :: rest).map fun u => ⟨u.text, u.header_path, get_chunk_line_ranges [u]⟩, true)
    else
      (scanGo MIN MAX (percentile40 sims) [] [u0] (sims.zip (u1 :: rest)), true)

/-- The chunk list produced by `chunk_text`. -/
def chunk_textM (MIN MAX : Nat) (sims : List ℚ) (units : List MdUnit) : List Chunk :=
  (chunk_textC MIN MAX sims units).1

/-- Specification-side boundary recursion, written from the words of the
claim: close the open chunk exactly when (the adjacent similarity is below
the threshold AND the accumulated length is at least `MIN`) OR the
accumulated length plus the next unit's text length exceeds `MAX`; on
closing, emit the chunk (texts joined by a blank line, `header_path` of the
first unit, merged line ranges) and seed the next chunk with the closed
chunk's last unit plus the next unit unless that last unit is a header, in
which case with the next unit alone; otherwise append the next unit; after
the scan emit the final open chunk unconditionally. -/
def boundarySpecGo (MIN MAX : Nat) (θ : ℚ) (cur : List MdUnit) :
    List (ℚ × MdUnit) → List Chunk
  | [] => [mkChunk cur]
  | (sim, next) :: rest =>
    if (sim < θ ∧ MIN ≤ clen cur) ∨ MAX < clen cur + next.text.length then
      mkChunk cur ::
        boundarySpecGo MIN MAX θ
          (match cur.getLast? with
           | some last => if last.kind = .header then [next] else [last, next]
           | none => [next]) rest
    else boundarySpecGo MIN MAX θ (cur ++ [next]) rest

/-- Specification-side description of the whole boundary chunker on a unit
sequence of length at least two: scan the adjacency list with the
40th-percentile threshold, starting from the first unit. -/
def boundarySpec (MIN MAX : Nat) (sims : List ℚ) (units : List MdUnit) : List Chunk :=
  match units with
  | u0 :: u1 :: rest => boundarySpecGo MIN MAX (percentile40 sims) [u0] (sims.zip (u1 :: rest))
  | _ => []

/-- Model of the `ChunkMetadata` pydantic model (chunking.py lines 27-30). -/
structure ChunkMetadata where
  summary : Str
  hypothetical_questions : List Str
  keywords : List Str
deriving DecidableEq

/-- Model of the `failure_info` dict appended to `failed_enrichments`
(chunking.py lines 344-349). -/
structure FailureRecord where
  chunk_index : Option Nat
  header_path : Str
  chunk_preview : Str
  error : Str
deriving DecidableEq

/-- The user message handed to the metadata-extraction service (chunking.py
line 326): it contains only the first 10000 characters of the chunk text. -/
def extractionInput (header_path chunk_text : Str) : Str :=
  "Context/Header Path: ".toList ++ header_path ++ "\n\nText:\n".toList ++ chunk_text.take 10000

/-- The default empty metadata returned when all retries fail (chunking.py
line 353). -/
def emptyMeta : ChunkMetadata := ⟨[], [], []⟩

/-- Hard truncation of a successful response (chunking.py lines 333-334). -/
def truncMeta (m : ChunkMetadata) : ChunkMetadata :=
  ⟨m.summary, m.hypothetical_questions.take 4, m.keywords.take 5⟩

/-- The failure record built after the last attempt (chunking.py lines
344-349): the item's index, its header path, the stripped 150-character
preview followed by an ellipsis, and the error text cut to 500 characters. -/
def mkFailureRecord (idx : Option Nat) (hp ct err : Str) : FailureRecord :=
  ⟨idx, hp, strip (ct.take 150) ++ "...".toList, err.take 500⟩

/-- Model of the retry loop of `enrich_chunk_metadata` (chunking.py lines
319-353).  The external chat call of attempt `a` is the oracle value
`oracle a msg` — `Except.ok` a parsed `ChunkMetadata`, `Except.error` the
text of the raised exception.  `fuel` bounds the remaining iterations;
`enrich_chunk_metadata` supplies `max_retries`, which is exact. -/
def enrichGo (mr : Nat) (oracle : Nat → Str → Except Str ChunkMetadata)
    (ct hp : Str) (idx : Option Nat) : Nat → Nat → ChunkMetadata × List FailureRecord
  | 0, _ => (emptyMeta, [])
  | fuel + 1, a =>
    if a < mr then
      match oracle a (extractionInput hp ct) with
      | .ok raw => (truncMeta raw, [])
      | .error e =>
        if a + 1 < mr then enrichGo mr oracle ct hp idx fuel (a + 1)
        else (emptyMeta, [mkFailureRecord idx hp ct e])
    else (emptyMeta, [])

/-- Model of `enrich_chunk_metadata` (chunking.py lines 318-353): the
metadata returned for the item and the failure records it appended. -/
def enrich_chunk_metadata (mr : Nat) (oracle : Nat → Str → Except Str ChunkMetadata)
    (ct hp : Str) (idx : Option Nat) : ChunkMetadata × List FailureRecord :=
  enrichGo mr oracle ct hp idx mr 0

/-- Model of dispatching `enrich_chunk_metadata` over every chunk item with
its global index (chunking.py lines 394-410; the batched `asyncio.gather`
waves process each item independently, so the run is the list of per-item
results).  `items` pairs each chunk's content with its header path, and
`oracle i` is the attempt oracle of item `i`. -/
def enrichAllGo (mr : Nat) (oracle : Nat → Nat → Str → Except Str ChunkMetadata) :
    List (Str × Str) → Nat → List (ChunkMetadata × List FailureRecord)
  | [], _ => []
  | it :: rest, i =>
    enrich_chunk_metadata mr (oracle i) it.1 it.2 (some i) :: enrichAllGo mr oracle rest (i + 1)

/-- All per-item enrichment results of a run, in item order. -/
def enrichAll (mr : Nat) (oracle : Nat → Nat → Str → Except Str ChunkMetadata)
    (items : List (Str × Str)) : List (ChunkMetadata × List FailureRecord) :=
  enrichAllGo mr oracle items 0

/-- The run's failure log: every appended failure record (`self.failed_enrichments`,
append-only across the run). -/
def failure_log (results : List (ChunkMetadata × List FailureRecord)) : List FailureRecord :=
  (results.map Prod.snd).flatten

/-- Model of the chunk dict built by `_process_file` (chunking.py lines
358-366), before enrichment. -/
structure ChunkRecord where
  content : Str
  header_path : Str
  line_ranges : List (Nat × Nat)
  source_file : Str
  chunk_index : Nat
  total_chunks_in_file : Nat
deriving DecidableEq

/-- Model of the record persisted by `enrich_and_save` (chunking.py lines
394-401), after the metadata merge and index assignments. -/
structure SavedChunk where
  content : Str
  header_path : Str
  line_ranges : List (Nat × Nat)
  source_file : Str
  chunk_index : Nat
  total_chunks_in_file : Nat
  summary : Str
  hypothetical_questions : List Str
  keywords : List Str
  global_chunk_index : Nat
deriving DecidableEq

/-- Enumeration loop of `_process_file` (chunking.py lines 358-366). -/
def processFileGo (md_file : Str) (total : Nat) : Nat → List Chunk → List ChunkRecord
  | _, [] => []
  | i, c :: rest =>
    ⟨c.content, c.header_path, c.line_ranges, md_file, i, total⟩ ::
      processFileGo md_file total (i + 1) rest

/-- Model of `_process_file` (chunking.py lines 355-368) applied to the
chunks of one document: `chunk_index` is `start_index + i`; the caller
(line 379) always uses the default `start_index = 0`. -/
def process_file (md_file : Str) (start_index : Nat) (file_chunks : List Chunk) :
    List ChunkRecord :=
  processFileGo md_file file_chunks.length start_index file_chunks

/-- Model of `enrich_and_save` for one record (chunking.py lines 394-401):
`chunk_data.update(metadata)` merges the metadata fields and leaves
`content`, `header_path`, `line_ranges`, `source_file` and
`total_chunks_in_file` unchanged, then both `global_chunk_index` and
`chunk_index` are assigned the global enumeration index `idx`. -/
def enrich_and_save (idx : Nat) (md : ChunkMetadata) (r : ChunkRecord) : SavedChunk :=
  ⟨r.content, r.header_path, r.line_ranges, r.source_file, idx,
    r.total_chunks_in_file, md.summary, md.hypothetical_questions, md.keywords, idx⟩

/-- Global enumeration of `enrich_and_save` over the concatenated records
(chunking.py lines 403-411: batch start `i` plus batch offset `j`). -/
def enrichSaveGo (metaOf : Nat → ChunkMetadata) : Nat → List ChunkRecord → List SavedChunk
  | _, [] => []
  | i, r :: rest => enrich_and_save i (metaOf i) r :: enrichSaveGo metaOf (i + 1) rest

/-- Model of `process_and_save` (chunking.py lines 370-421) on the
discovered documents, each given as (file name, chunks from `chunk_text`);
`metaOf i` abstracts the metadata obtained for global index `i`. -/
def process_and_save (docs : List (Str × List Chunk)) (metaOf : Nat → ChunkMetadata) :
    List SavedChunk :=
  enrichSaveGo metaOf 0 ((docs.map fun d => process_file d.1 0 d.2).flatten)

/-- Configuration stored by `Chunker.__init__` (chunking.py lines 55-61). -/
structure ChunkerConfig where
  embedding_batch_size : Nat
  enrich_batch_size : Nat
  max_dynamic_size : Nat
  min_dynamic_size : Nat
  long_paragraph_length : Nat
  max_retries : Nat
deriving DecidableEq

/-- The configuration-error kind the specification prescribes for invalid
size thresholds. -/
inductive ConfigurationError where
  | invalid_size_thresholds
deriving DecidableEq

/-- Model of `Chunker.__init__` (chunking.py lines 33-78) restricted to the
size/batch/retry parameters (client construction is external I/O).  The
`Except` codomain expresses that the constructor could report a
configuration error; the source performs no validation of the thresholds,
so every parameter combination is stored unchanged and accepted. -/
def Chunker.init (ebs ens maxd mind lpl mr : Nat) :
    Except ConfigurationError ChunkerConfig :=
  Except.ok ⟨ebs, ens, maxd, mind, lpl, mr⟩

/-- Well-formedness of an extracted unit, as claimed: a 1-based, ordered
line span and text that is non-empty after trimming. -/
def UnitWF (u : MdUnit) : Prop :=
  1 ≤ u.line_start ∧ u.line_start ≤ u.line_end ∧ strip u.text ≠ []

theorem strip_nonempty_wf (s : Str) (hs : strip s ≠ []) : strip (strip s) ≠ [] := by
  rw [strip_idem]; exact hs

theorem sentenceUnitsGo_wf (offsets : List Nat)
    (hpos : ∀ ci, 1 ≤ get_line_number offsets ci) (part : Str) (real_start : Nat)
    (hp : Str) : ∀ sents pos, ∀ u ∈ sentenceUnitsGo offsets part real_start hp pos sents,
      UnitWF u := by
  intro sents
  induction sents with
  | nil => intro pos u hu; simp [sentenceUnitsGo] at hu
  | cons s rest ih =>
    intro pos u hu
    simp only [sentenceUnitsGo] at hu
    split at hu
    · exact ih _ u hu
    · rename_i hne
      rcases List.mem_cons.mp hu with h | h
      · subst h
        have hst : strip s ≠ [] := by
          intro hc
          rw [hc] at hne
          exact hne rfl
        have hlen : 1 ≤ (strip s).length := List.length_pos.mpr hst
        refine ⟨hpos _, ?_, strip_nonempty_wf s hst⟩
        exact get_line_number_mono offsets _ _ (by omega)
      · exact ih _ u h

theorem partToUnits_wf (offsets : List Nat)
    (hpos : ∀ ci, 1 ≤ get_line_number offsets ci) (lpl : Nat)
    (stack : List (Nat × Str)) (start_offset : Nat) (part : Str) :
    ∀ u ∈ (partToUnits offsets lpl stack start_offset part).1, UnitWF u := by
  intro u hu
  simp only [partToUnits] at hu
  split at hu
  · simp at hu
  · rename_i hne
    have hst : rstrip (lstrip part) ≠ [] := by
      intro hc
      rw [hc] at hne
      exact hne rfl
    have hstrip : rstrip (lstrip part) = strip part := rfl
    have hidem : strip (rstrip (lstrip part)) ≠ [] := by
      rw [hstrip, strip_idem, ← hstrip]
      exact hst
    have hlen : 1 ≤ (rstrip (lstrip part)).length := List.length_pos.mpr hst
    have hmono : get_line_number offsets (start_offset + (part.length - (lstrip part).length)) ≤
        get_line_number offsets
          (start_offset + (part.length - (lstrip part).length) + (rstrip (lstrip part)).length - 1) :=
      get_line_number_mono offsets _ _ (by omega)
    split at hu
    · rcases List.mem_cons.mp hu with h | h
      · subst h
        exact ⟨hpos _, hmono, hidem⟩
      · simp at h
    · split at hu
      · rcases List.mem_cons.mp hu with h | h
        · subst h
          exact ⟨hpos _, hmono, hidem⟩
        · simp at h
      · split at hu
        · exact sentenceUnitsGo_wf offsets hpos _ _ _ _ _ u hu
        · rcases List.mem_cons.mp hu with h | h
          · subst h
            exact ⟨hpos _, hmono, hidem⟩
          · simp at h

theorem getUnitsGo_wf (offsets : List Nat)
    (hpos : ∀ ci, 1 ≤ get_line_number offsets ci) (lpl : Nat) :
    ∀ parts stack, ∀ u ∈ getUnitsGo offsets lpl parts stack, UnitWF u := by
  intro parts
  induction parts with
  | nil => intro stack u hu; simp [getUnitsGo] at hu
  | cons pr rest ih =>
    intro stack u hu
    obtain ⟨s, e, p⟩ := pr
    simp only [getUnitsGo, List.mem_append] at hu
    rcases hu with h | h
    · exact partToUnits_wf offsets hpos lpl stack s p u h
    · exact ih _ u h

/-- C10: for every input string (and long-paragraph configuration), every
unit emitted by the unit extractor has a well-formed line span
(`1 ≤ line_start ≤ line_end`) and text that is non-empty after trimming. -/
theorem markdown_units_wellformed (content : Str) (lpl : Nat) :
    ∀ u ∈ get_markdown_units content lpl,
      1 ≤ u.line_start ∧ u.line_start ≤ u.line_end ∧ strip u.text ≠ [] := by
  intro u hu
  exact getUnitsGo_wf (line_offsets content) (fun ci => get_line_number_pos content ci)
    lpl (splitParts content) [] u hu

/-- Concrete witness for C10 at a two-line document with one unit. -/
theorem markdown_units_wellformed_witness :
    (⟨"hello\nworld.".toList, .text, [], 1, 2⟩ : MdUnit) ∈
        get_markdown_units "hello\nworld.".toList 500 ∧
      (1 ≤ (1 : Nat) ∧ (1 : Nat) ≤ 2 ∧ strip "hello\nworld.".toList ≠ []) :=
  ⟨by decide, markdown_units_wellformed "hello\nworld.".toList 500
    ⟨"hello\nworld.".toList, .text, [], 1, 2⟩ (by decide)⟩

theorem mergeGo_shape (rs : List (Nat × Nat)) :
    ∀ cs ce, ∃ ce2 tl, mergeGo cs ce rs = (cs, ce2) :: tl ∧ ce ≤ ce2 := by
  induction rs with
  | nil => intro cs ce; exact ⟨ce, [], rfl, Nat.le_refl _⟩
  | cons r rest ih =>
    intro cs ce
    obtain ⟨s, e⟩ := r
    simp only [mergeGo]
    split
    · obtain ⟨ce2, tl, heq, hle⟩ := ih cs (max ce e)
      exact ⟨ce2, tl, heq, Nat.le_trans (Nat.le_max_left _ _) hle⟩
    · exact ⟨ce, mergeGo s e rest, rfl, Nat.le_refl _⟩

theorem mergeGo_chain (rs : List (Nat × Nat)) :
    ∀ cs ce, List.Chain' (fun a b => a.2 + 1 < b.1) (mergeGo cs ce rs) := by
  induction rs with
  | nil => intro cs ce; simp [mergeGo]
  | cons r rest ih =>
    intro cs ce
    obtain ⟨s, e⟩ := r
    simp only [mergeGo]
    split
    · exact ih cs (max ce e)
    · rename_i hgt
      obtain ⟨ce2, tl, heq, _⟩ := mergeGo_shape rest s e
      rw [heq]
      refine List.chain'_cons.mpr ⟨by simp at hgt ⊢; omega, ?_⟩
      rw [← heq]
      exact ih s e

theorem mergeGo_within (rs : List (Nat × Nat)) :
    ∀ cs ce, cs ≤ ce → (∀ r ∈ rs, r.1 ≤ r.2) →
      ∀ r ∈ mergeGo cs ce rs, r.1 ≤ r.2 := by
  induction rs with
  | nil =>
    intro cs ce hce _ r hr
    simp only [mergeGo, List.mem_singleton] at hr
    subst hr
    exact hce
  | cons q rest ih =>
    intro cs ce hce hall r hr
    obtain ⟨s, e⟩ := q
    simp only [mergeGo] at hr
    split at hr
    · exact ih cs (max ce e) (Nat.le_trans hce (Nat.le_max_left _ _))
        (fun r' hr' => hall r' (List.mem_cons_of_mem _ hr')) r hr
    · rcases List.mem_cons.mp hr with h | h
      · subst h; exact hce
      · exact ih s e (hall (s, e) (List.mem_cons_self _ _))
          (fun r' hr' => hall r' (List.mem_cons_of_mem _ hr')) r h

theorem mergeGo_cover (rs : List (Nat × Nat)) :
    ∀ cs ce, List.Pairwise leStart rs → (∀ r ∈ rs, cs ≤ r.1) →
      ∀ r ∈ rs, ∃ m ∈ mergeGo cs ce rs, m.1 ≤ r.1 ∧ r.2 ≤ m.2 := by
  induction rs with
  | nil => intro cs ce _ _ r hr; simp at hr
  | cons q rest ih =>
    intro cs ce hsorted hcs r hr
    obtain ⟨s, e⟩ := q
    simp only [mergeGo]
    split
    · rename_i hle
      rcases List.mem_cons.mp hr with h | h
      · subst h
        obtain ⟨ce2, tl, heq, hce2⟩ := mergeGo_shape rest cs (max ce e)
        rw [heq]
        exact ⟨(cs, ce2), List.mem_cons_self _ _,
          hcs (s, e) (List.mem_cons_self _ _),
          Nat.le_trans (Nat.le_max_right ce e) hce2⟩
      · exact ih cs (max ce e) hsorted.of_cons
          (fun r' hr' => hcs r' (List.mem_cons_of_mem _ hr')) r h
    · rename_i hgt
      rcases List.mem_cons.mp hr with h | h
      · subst h
        obtain ⟨ce2, tl, heq, hce2⟩ := mergeGo_shape rest s e
        rw [heq]
        exact ⟨(s, ce2), List.mem_cons_of_mem _ (List.mem_cons_self _ _),
          Nat.le_refl _, hce2⟩
      · have hstart : ∀ r' ∈ rest, s ≤ r'.1 := fun r' hr' =>
          (List.pairwise_cons.mp hsorted).1 r' hr'
        obtain ⟨m, hm, hm1, hm2⟩ := ih s e hsorted.of_cons hstart r h
        exact ⟨m, List.mem_cons_of_mem _ hm, hm1, hm2⟩

/-- C6: for every chunk built from units with well-ordered line spans, its
merged line ranges have well-ordered intervals, consecutive intervals in
sorted order separated by more than one line (so overlapping or gap-at-most-1
inputs are collapsed and the sequence is minimal), and every constituent
unit's span is contained in one of the intervals. -/
theorem line_ranges_merged (us : List MdUnit)
    (hwf : ∀ u ∈ us, u.line_start ≤ u.line_end) :
    (∀ r ∈ get_chunk_line_ranges us, r.1 ≤ r.2) ∧
      List.Chain' (fun a b => a.2 + 1 < b.1) (get_chunk_line_ranges us) ∧
      (∀ u ∈ us, ∃ m ∈ get_chunk_line_ranges us,
        m.1 ≤ u.line_start ∧ u.line_end ≤ m.2) := by
  have hperm : List.Perm (List.insertionSort leStart (us.map fun u => (u.line_start, u.line_end)))
      (us.map fun u => (u.line_start, u.line_end)) := List.perm_insertionSort _ _
  have hsorted : List.Pairwise leStart
      (List.insertionSort leStart (us.map fun u => (u.line_start, u.line_end))) :=
    List.sorted_insertionSort leStart _
  have hwf2 : ∀ r ∈ List.insertionSort leStart (us.map fun u => (u.line_start, u.line_end)),
      r.1 ≤ r.2 := by
    intro r hr
    obtain ⟨u, hu, hru⟩ := List.mem_map.mp (hperm.mem_iff.mp hr)
    rw [← hru]
    exact hwf u hu
  cases hs : List.insertionSort leStart (us.map fun u => (u.line_start, u.line_end)) with
  | nil =>
    have heq : get_chunk_line_ranges us = [] := by
      unfold get_chunk_line_ranges
      rw [hs]
    refine ⟨by rw [heq]; simp, by rw [heq]; simp, ?_⟩
    intro u hu
    have : (u.line_start, u.line_end) ∈
        List.insertionSort leStart (us.map fun u => (u.line_start, u.line_end)) :=
      hperm.mem_iff.mpr (List.mem_map_of_mem _ hu)
    rw [hs] at this
    simp at this
  | cons r0 rest =>
    have heq : get_chunk_line_ranges us = mergeGo r0.1 r0.2 rest := by
      unfold get_chunk_line_ranges
      rw [hs]
    rw [hs] at hsorted hwf2
    rw [heq]
    refine ⟨?_, ?_, ?_⟩
    · exact mergeGo_within rest r0.1 r0.2 (hwf2 r0 (List.mem_cons_self _ _))
        (fun r' hr' => hwf2 r' (List.mem_cons_of_mem _ hr'))
    · exact mergeGo_chain rest r0.1 r0.2
    · intro u hu
      have hmem : (u.line_start, u.line_end) ∈
          List.insertionSort leStart (us.map fun u => (u.line_start, u.line_end)) :=
        hperm.mem_iff.mpr (List.mem_map_of_mem _ hu)
      rw [hs] at hmem
      rcases List.mem_cons.mp hmem with heq2 | hmem2
      · obtain ⟨ce2, tl, hmg, hce2⟩ := mergeGo_shape rest r0.1 r0.2
        rw [hmg]
        refine ⟨(r0.1, ce2), List.mem_cons_self _ _, ?_, ?_⟩
        · exact le_of_eq (congrArg Prod.fst heq2.symm)
        · calc u.line_end = r0.2 := congrArg Prod.snd heq2
            _ ≤ ce2 := hce2
      · exact mergeGo_cover rest r0.1 r0.2 hsorted.of_cons
          (fun r' hr' => (List.pairwise_cons.mp hsorted).1 r' hr')
          (u.line_start, u.line_end) hmem2

/-- Unit list with overlapping, adjacent and separated spans exercising the
merge behaviour for the C6 witness. -/
def wRangeUnits : List MdUnit :=
  [⟨"a".toList, .text, [], 5, 6⟩, ⟨"b".toList, .text, [], 1, 2⟩,
   ⟨"c".toList, .text, [], 3, 3⟩, ⟨"d".toList, .text, [], 9, 12⟩]

/-- Concrete witness for C6: spans (5,6), (1,2), (3,3), (9,12) merge to
[(1,3), (5,6), (9,12)]. -/
theorem line_ranges_merged_witness :
    (∀ u ∈ wRangeUnits, u.line_start ≤ u.line_end) ∧
      ((∀ r ∈ get_chunk_line_ranges wRangeUnits, r.1 ≤ r.2) ∧
        List.Chain' (fun a b => a.2 + 1 < b.1) (get_chunk_line_ranges wRangeUnits) ∧
        (∀ u ∈ wRangeUnits, ∃ m ∈ get_chunk_line_ranges wRangeUnits,
          m.1 ≤ u.line_start ∧ u.line_end ≤ m.2)) :=
  ⟨by decide, line_ranges_merged wRangeUnits (by decide)⟩

theorem scanGo_eq_spec (MIN MAX : Nat) (θ : ℚ) :
    ∀ pairs acc cur, cur ≠ [] →
      scanGo MIN MAX θ acc cur pairs = acc ++ boundarySpecGo MIN MAX θ cur pairs := by
  intro pairs
  induction pairs with
  | nil =>
    intro acc cur hcur
    have hie : cur.isEmpty = false := by
      cases cur
      · exact absurd rfl hcur
      · rfl
    simp [scanGo, boundarySpecGo, hie]
  | cons p rest ih =>
    intro acc cur hcur
    obtain ⟨sim, next⟩ := p
    simp only [scanGo, boundarySpecGo]
    split
    · cases hlast : cur.getLast? with
      | none =>
        show scanGo MIN MAX θ (acc ++ [mkChunk cur]) [next] rest =
          acc ++ mkChunk cur :: boundarySpecGo MIN MAX θ [next] rest
        rw [ih (acc ++ [mkChunk cur]) [next] (by simp)]
        simp
      | some last =>
        show scanGo MIN MAX θ (acc ++ [mkChunk cur])
            (if last.kind ≠ UnitKind.header then [last, next] else [next]) rest =
          acc ++ mkChunk cur :: boundarySpecGo MIN MAX θ
            (if last.kind = UnitKind.header then [next] else [last, next]) rest
        by_cases hk : last.kind = UnitKind.header
        · rw [if_neg (not_not_intro hk), if_pos hk]
          rw [ih (acc ++ [mkChunk cur]) [next] (by simp)]
          simp
        · rw [if_pos hk, if_neg hk]
          rw [ih (acc ++ [mkChunk cur]) [last, next] (by simp)]
          simp
    · exact ih acc (cur ++ [next]) (by simp)

/-- C1: on a unit sequence of length at least two with index-aligned
similarity scores, the boundary scan of `chunk_text` closes the open chunk
exactly when (the adjacent similarity is below the 40th-percentile threshold
AND the accumulated length — the sum over current units of text length
plus 2 — is at least `MIN_DYNAMIC_SIZE`) OR that accumulated length plus the
next unit's text length exceeds `MAX_DYNAMIC_SIZE`; the emitted chunk joins
the unit texts with a blank line and takes the first unit's header path; the
next chunk is seeded with the closed chunk's last unit plus the next unit
when that last unit is not a header and with only the next unit when it is;
otherwise the next unit is appended; the final open chunk is emitted
unconditionally.  `boundarySpec` is this description verbatim. -/
theorem chunk_text_boundary_characterization (MIN MAX : Nat) (units : List MdUnit)
    (sims : List ℚ) (h2 : 2 ≤ units.length) (hal : sims.length + 1 = units.length) :
    chunk_textM MIN MAX sims units = boundarySpec MIN MAX sims units := by
  cases units with
  | nil => simp at h2
  | cons u0 t =>
    cases t with
    | nil => simp at h2
    | cons u1 rest =>
      have hsne : sims.isEmpty = false := by
        cases sims
        · simp at hal
        · rfl
      unfold chunk_textM chunk_textC boundarySpec
      rw [hsne]
      simp only [Bool.false_eq_true, if_false]
      rw [scanGo_eq_spec MIN MAX (percentile40 sims) (sims.zip (u1 :: rest)) [] [u0] (by simp)]
      simp

/-- Three units and aligned similarity scores exercising the C1 theorem. -/
def wBoundaryUnits : List MdUnit :=
  [⟨"alpha beta".toList, .text, [], 1, 1⟩, ⟨"# B".toList, .header, "B".toList, 3, 3⟩,
   ⟨"gamma".toList, .text, "B".toList, 5, 5⟩]

/-- Concrete witness for C1 with three units and two similarity scores. -/
theorem chunk_text_boundary_characterization_witness :
    2 ≤ wBoundaryUnits.length ∧
      ([(1 : ℚ), Rat.divInt 1 2].length + 1 = wBoundaryUnits.length) ∧
      chunk_textM 300 2000 [(1 : ℚ), Rat.divInt 1 2] wBoundaryUnits =
        boundarySpec 300 2000 [(1 : ℚ), Rat.divInt 1 2] wBoundaryUnits :=
  ⟨by decide, by decide,
    chunk_text_boundary_characterization 300 2000 wBoundaryUnits
      [(1 : ℚ), Rat.divInt 1 2] (by decide) (by decide)⟩

theorem joinTexts_length (us : List MdUnit) (h : us ≠ []) :
    (joinTexts us).length + 2 = clen us := by
  induction us with
  | nil => exact absurd rfl h
  | cons u t ih =>
    cases t with
    | nil => simp [joinTexts, clen]
    | cons v w =>
      have hrec := ih (by simp)
      simp only [joinTexts, clen, List.map_cons, List.sum_cons, List.length_append,
        List.length_cons] at hrec ⊢
      omega

theorem clen_append_one (cur : List MdUnit) (next : MdUnit) :
    clen (cur ++ [next]) = clen cur + (next.text.length + 2) := by
  simp [clen]

theorem scanGo_bounds (MIN MAX : Nat) (θ : ℚ) :
    ∀ pairs acc cur, cur ≠ [] → clen cur ≤ MAX + 2 →
      (∀ u ∈ cur, 2 * u.text.length + 2 ≤ MAX ∧ u.text.length + MIN ≤ MAX) →
      (∀ p ∈ pairs, 2 * (p : ℚ × MdUnit).2.text.length + 2 ≤ MAX ∧
        p.2.text.length + MIN ≤ MAX) →
      (∀ c ∈ acc, MIN ≤ c.content.length + 2 ∧ c.content.length ≤ MAX) →
      ∀ c ∈ (scanGo MIN MAX θ acc cur pairs).dropLast,
        MIN ≤ c.content.length + 2 ∧ c.content.length ≤ MAX := by
  intro pairs
  induction pairs with
  | nil =>
    intro acc cur hcur hclen hQc hQp hacc c hc
    have hie : cur.isEmpty = false := by
      cases cur
      · exact absurd rfl hcur
      · rfl
    simp only [scanGo, hie, Bool.false_eq_true, if_false] at hc
    rw [List.dropLast_concat] at hc
    exact hacc c hc
  | cons p rest ih =>
    intro acc cur hcur hclen hQc hQp hacc c hc
    obtain ⟨sim, next⟩ := p
    have hQnext : 2 * next.text.length + 2 ≤ MAX ∧ next.text.length + MIN ≤ MAX :=
      hQp (sim, next) (List.mem_cons_self _ _)
    have hQrest : ∀ q ∈ rest, 2 * (q : ℚ × MdUnit).2.text.length + 2 ≤ MAX ∧
        q.2.text.length + MIN ≤ MAX := fun q hq => hQp q (List.mem_cons_of_mem _ hq)
    simp only [scanGo] at hc
    split at hc
    · rename_i hclose
      have hcontent : (mkChunk cur).content.length + 2 = clen cur :=
        joinTexts_length cur hcur
    -- the closed chunk satisfies both bounds
      have hbound : MIN ≤ (mkChunk cur).content.length + 2 ∧
          (mkChunk cur).content.length ≤ MAX := by
        constructor
        · rcases hclose with ⟨_, hbig⟩ | hover
          · omega
          · have := hQnext.2
            omega
        · omega
      have hacc2 : ∀ c ∈ acc ++ [mkChunk cur],
          MIN ≤ c.content.length + 2 ∧ c.content.length ≤ MAX := by
        intro c2 hc2
        rcases List.mem_append.mp hc2 with h | h
        · exact hacc c2 h
        · rw [List.mem_singleton.mp h]
          exact hbound
      cases hlast : cur.getLast? with
      | none =>
        rw [hlast] at hc
        refine ih (acc ++ [mkChunk cur]) [next] (by simp) ?_ ?_ hQrest hacc2 c hc
        · simp only [clen, List.map_cons, List.map_nil, List.sum_cons, List.sum_nil]
          have := hQnext.1
          omega
        · intro u hu
          rw [List.mem_singleton.mp hu]
          exact hQnext
      | some last =>
        rw [hlast] at hc
        have hlastQ : 2 * last.text.length + 2 ≤ MAX ∧ last.text.length + MIN ≤ MAX :=
          hQc last (List.mem_of_mem_getLast? hlast)
        by_cases hk : last.kind = UnitKind.header
        · simp only [ne_eq, hk, not_true_eq_false, if_false] at hc
          refine ih (acc ++ [mkChunk cur]) [next] (by simp) ?_ ?_ hQrest hacc2 c hc
          · simp only [clen, List.map_cons, List.map_nil, List.sum_cons, List.sum_nil]
            have := hQnext.1
            omega
          · intro u hu
            rw [List.mem_singleton.mp hu]
            exact hQnext
        · simp only [ne_eq, hk, not_false_iff, if_true] at hc
          refine ih (acc ++ [mkChunk cur]) [last, next] (by simp) ?_ ?_ hQrest hacc2 c hc
          · simp only [clen, List.map_cons, List.map_nil, List.sum_cons, List.sum_nil]
            have h1 := hQnext.1
            have h2 := hlastQ.1
            omega
          · intro u hu
            rcases List.mem_cons.mp hu with h | h
            · rw [h]; exact hlastQ
            · rw [List.mem_singleton.mp h]; exact hQnext
    · rename_i hkeep
      push_neg at hkeep
      refine ih acc (cur ++ [next]) (by simp) ?_ ?_ hQrest hacc c hc
      · rw [clen_append_one]
        have := hkeep.2
        omega
      · intro u hu
        rcases List.mem_append.mp hu with h | h
        · exact hQc u h
        · rw [List.mem_singleton.mp h]
          exact hQnext

/-- C4 (amended): when every unit's text length `L` satisfies
`2 L + 2 ≤ MAX_DYNAMIC_SIZE` and `L + MIN_DYNAMIC_SIZE ≤ MAX_DYNAMIC_SIZE`,
every chunk except possibly the last has content length at least
`MIN_DYNAMIC_SIZE - 2` and at most `MAX_DYNAMIC_SIZE`; without such a bound
on unit lengths an overflow-forced close can emit a middle chunk far below
`MIN_DYNAMIC_SIZE` (see the counterexample). -/
theorem chunk_text_size_bounds (MIN MAX : Nat) (sims : List ℚ) (units : List MdUnit)
    (hal : 2 ≤ units.length → sims.length + 1 = units.length)
    (hQ : ∀ u ∈ units, 2 * u.text.length + 2 ≤ MAX ∧ u.text.length + MIN ≤ MAX) :
    ∀ c ∈ (chunk_textM MIN MAX sims units).dropLast,
      MIN ≤ c.content.length + 2 ∧ c.content.length ≤ MAX := by
  cases units with
  | nil => intro c hc; simp [chunk_textM, chunk_textC] at hc
  | cons u0 t =>
    cases t with
    | nil => intro c hc; simp [chunk_textM, chunk_textC] at hc
    | cons u1 rest =>
      have hsne : sims.isEmpty = false := by
        have := hal (by simp)
        cases sims
        · simp at this
        · rfl
      intro c hc
      unfold chunk_textM chunk_textC at hc
      rw [hsne] at hc
      simp only [Bool.false_eq_true, if_false] at hc
      have hQ0 := hQ u0 (List.mem_cons_self _ _)
      refine scanGo_bounds MIN MAX (percentile40 sims) (sims.zip (u1 :: rest)) [] [u0]
        (by simp) ?_ ?_ ?_ (by simp) c hc
      · simp only [clen, List.map_cons, List.map_nil, List.sum_cons, List.sum_nil]
        omega
      · intro u hu
        rw [List.mem_singleton.mp hu]
        exact hQ0
      · intro q hq
        obtain ⟨qs, qu⟩ := q
        exact hQ qu (List.mem_cons_of_mem _ (List.of_mem_zip hq).2)

/-- Document built from four paragraphs of lengths 16, 1, 1 and 16 on which
the boundary scan at configuration MIN 6, MAX 20 (equal similarity scores,
so no topic-shift close fires) emits a middle chunk of content length 4.
The same shape scales to the default configuration MIN 300, MAX 2000 with
paragraph lengths 1985, 10, 10, 1980, where the middle chunk has content
length 22. -/
def C4doc : Str :=
  List.replicate 16 'a' ++ "\n\n".toList ++ "b\n\nc\n\n".toList ++
    List.replicate 16 'd'

/-- C4 counterexample: at sizes MIN 6 and MAX 20 the document `C4doc`
(default long-paragraph threshold 500) yields three chunks of content
lengths 19, 4 and 19 — the middle chunk, which is neither the first nor the
last chunk of the document, is below `MIN_DYNAMIC_SIZE = 6` (the overflow
rule closed it early), refuting the claimed lower bound. -/
theorem chunk_size_counterexample :
    (get_markdown_units C4doc 500).length = 4 ∧
      ((chunk_textM 6 20 [1, 1, 1] (get_markdown_units C4doc 500)).map
        fun c => c.content.length) = [19, 4, 19] ∧
      (4 : Nat) < 6 :=
  ⟨by decide, by decide, by decide⟩

/-- Four units of text length 3 with MIN 2 and MAX 8 exercising the amended
C4 theorem: the scan closes twice by overflow, emitting two non-final chunks
of content length 8. -/
def wSizeUnits : List MdUnit :=
  [⟨"abc".toList, .text, [], 1, 1⟩, ⟨"def".toList, .text, [], 2, 2⟩,
   ⟨"ghi".toList, .text, [], 3, 3⟩, ⟨"jkl".toList, .text, [], 4, 4⟩]

/-- Concrete witness for the amended C4 theorem. -/
theorem chunk_text_size_bounds_witness :
    (∀ u ∈ wSizeUnits, 2 * u.text.length + 2 ≤ 8 ∧ u.text.length + 2 ≤ 8) ∧
      ∀ c ∈ (chunk_textM 2 8 [1, 1, 1] wSizeUnits).dropLast,
        2 ≤ c.content.length + 2 ∧ c.content.length ≤ 8 :=
  ⟨by decide, chunk_text_size_bounds 2 8 [1, 1, 1] wSizeUnits (by decide) (by decide)⟩

/-- C5: for every input whose unit extraction yields exactly one unit,
`chunk_text` returns exactly one chunk wrapping that unit's text verbatim
with the single line interval covering the unit's lines, and no embedding
request is issued (the returned flag is `false`: the single-unit case
returns before the embedding call of line 255, for any similarity input). -/
theorem single_unit_chunk (content : Str) (lpl MIN MAX : Nat) (u : MdUnit)
    (h : get_markdown_units content lpl = [u]) (sims : List ℚ) :
    chunk_textC MIN MAX sims (get_markdown_units content lpl) =
      ([⟨u.text, u.header_path, [(u.line_start, u.line_end)]⟩], false) := by
  rw [h]
  rfl

/-- Single-paragraph two-line document for the C5 witness. -/
def singleDoc : Str := "hello\nworld.".toList

/-- Concrete witness for C5: a single short paragraph spanning lines 1-2
yields one chunk with `line_ranges = [(1, 2)]` and no embedding request. -/
theorem single_unit_chunk_witness :
    get_markdown_units singleDoc 500 = [⟨"hello\nworld.".toList, .text, [], 1, 2⟩] ∧
      chunk_textC 300 2000 [] (get_markdown_units singleDoc 500) =
        ([⟨"hello\nworld.".toList, [], [(1, 2)]⟩], false) :=
  ⟨by decide, single_unit_chunk singleDoc 500 300 2000
    ⟨"hello\nworld.".toList, .text, [], 1, 2⟩ (by decide) []⟩

theorem enrichGo_log_index (mr : Nat) (oracle : Nat → Str → Except Str ChunkMetadata)
    (ct hp : Str) (idx : Option Nat) :
    ∀ fuel a, ∀ r ∈ (enrichGo mr oracle ct hp idx fuel a).2, r.chunk_index = idx := by
  intro fuel
  induction fuel with
  | zero => intro a r hr; simp [enrichGo] at hr
  | succ f ih =>
    intro a r hr
    simp only [enrichGo] at hr
    split at hr
    · split at hr
      · simp at hr
      · split at hr
        · exact ih _ r hr
        · simp only [List.mem_singleton] at hr
          subst hr
          rfl
    · simp at hr

theorem enrichGo_all_fail (mr : Nat) (oracle : Nat → Str → Except Str ChunkMetadata)
    (ct hp : Str) (idx : Option Nat) (errs : Nat → Str)
    (hfail : ∀ a, a < mr → oracle a (extractionInput hp ct) = .error (errs a)) :
    ∀ fuel a, a < mr → mr ≤ fuel + a →
      enrichGo mr oracle ct hp idx fuel a =
        (emptyMeta, [mkFailureRecord idx hp ct (errs (mr - 1))]) := by
  intro fuel
  induction fuel with
  | zero => intro a ha hf; omega
  | succ f ih =>
    intro a ha hf
    simp only [enrichGo]
    rw [if_pos ha]
    simp only [hfail a ha]
    by_cases h2 : a + 1 < mr
    · rw [if_pos h2]
      exact ih (a + 1) h2 (by omega)
    · rw [if_neg h2]
      have : a = mr - 1 := by omega
      rw [this]

theorem enrich_all_fail (mr : Nat) (oracle : Nat → Str → Except Str ChunkMetadata)
    (ct hp : Str) (idx : Option Nat) (errs : Nat → Str) (hmr : 1 ≤ mr)
    (hfail : ∀ a, a < mr → oracle a (extractionInput hp ct) = .error (errs a)) :
    enrich_chunk_metadata mr oracle ct hp idx =
      (emptyMeta, [mkFailureRecord idx hp ct (errs (mr - 1))]) :=
  enrichGo_all_fail mr oracle ct hp idx errs hfail mr 0 (by omega) (by omega)

theorem enrichAllGo_getElem? (mr : Nat) (oracle : Nat → Nat → Str → Except Str ChunkMetadata) :
    ∀ (items : List (Str × Str)) (i0 k : Nat),
      (enrichAllGo mr oracle items i0)[k]? =
        (items[k]?).map fun it =>
          enrich_chunk_metadata mr (oracle (i0 + k)) it.1 it.2 (some (i0 + k)) := by
  intro items
  induction items with
  | nil => intro i0 k; simp [enrichAllGo]
  | cons it rest ih =>
    intro i0 k
    cases k with
    | zero => simp [enrichAllGo]
    | succ k2 =>
      simp only [enrichAllGo, List.getElem?_cons_succ]
      rw [ih (i0 + 1) k2]
      have harith : i0 + 1 + k2 = i0 + (k2 + 1) := by omega
      rw [harith]

theorem failure_log_filter_ge (mr : Nat)
    (oracle : Nat → Nat → Str → Except Str ChunkMetadata) (k : Nat) :
    ∀ (items : List (Str × Str)) (i0 : Nat), k < i0 →
      (failure_log (enrichAllGo mr oracle items i0)).filter
        (fun r => decide (r.chunk_index = some k)) = [] := by
  intro items
  induction items with
  | nil => intro i0 _; simp [enrichAllGo, failure_log]
  | cons it rest ih =>
    intro i0 hlt
    simp only [enrichAllGo, failure_log, List.map_cons, List.flatten_cons]
    rw [List.filter_append]
    rw [show ((enrich_chunk_metadata mr (oracle i0) it.1 it.2 (some i0)).2).filter
        (fun r => decide (r.chunk_index = some k)) = [] from ?_]
    · rw [List.nil_append]
      exact ih (i0 + 1) (by omega)
    · rw [List.filter_eq_nil_iff]
      intro r hr
      have := enrichGo_log_index mr (oracle i0) it.1 it.2 (some i0) mr 0 r hr
      simp only [this, decide_eq_true_eq, Option.some.injEq]
      omega

theorem failure_log_filter_at (mr : Nat)
    (oracle : Nat → Nat → Str → Except Str ChunkMetadata) (k : Nat) (errs : Nat → Str)
    (hmr : 1 ≤ mr) :
    ∀ (items : List (Str × Str)) (i0 : Nat) (itk : Str × Str), i0 ≤ k →
      items[k - i0]? = some itk →
      (∀ a, a < mr → oracle k a (extractionInput itk.2 itk.1) = .error (errs a)) →
      (failure_log (enrichAllGo mr oracle items i0)).filter
          (fun r => decide (r.chunk_index = some k)) =
        [mkFailureRecord (some k) itk.2 itk.1 (errs (mr - 1))] := by
  intro items
  induction items with
  | nil => intro i0 itk _ hget _; simp at hget
  | cons it rest ih =>
    intro i0 itk hle hget hfail
    simp only [enrichAllGo, failure_log, List.map_cons, List.flatten_cons]
    rw [List.filter_append]
    by_cases heq : i0 = k
    · subst heq
      have hzero : i0 - i0 = 0 := by omega
      rw [hzero] at hget
      simp only [List.getElem?_cons_zero, Option.some.injEq] at hget
      subst hget
      rw [enrich_all_fail mr (oracle i0) it.1 it.2 (some i0) errs hmr hfail]
      have hge := failure_log_filter_ge mr oracle i0 rest (i0 + 1) (by omega)
      unfold failure_log at hge
      rw [hge]
      simp only [List.append_nil, List.filter_cons, List.filter_nil]
      rw [if_pos (by simp [mkFailureRecord])]
    · have hlt : i0 < k := by omega
      rw [show ((enrich_chunk_metadata mr (oracle i0) it.1 it.2 (some i0)).2).filter
          (fun r => decide (r.chunk_index = some k)) = [] from ?_]
      · rw [List.nil_append]
        refine ih (i0 + 1) itk (by omega) ?_ hfail
        have harith : k - i0 = (k - (i0 + 1)) + 1 := by omega
        rw [harith] at hget
        simpa using hget
      · rw [List.filter_eq_nil_iff]
        intro r hr
        have := enrichGo_log_index mr (oracle i0) it.1 it.2 (some i0) mr 0 r hr
        simp only [this, decide_eq_true_eq, Option.some.injEq]
        omega

/-- C7: when every one of the `MAX_RETRIES` attempts for item `k` fails,
`enrich_chunk_metadata` returns (never raises) the default empty result,
exactly one failure record for index `k` is appended to the run's failure
log — carrying the item's index, its header path, a stripped content
preview of at most 150 characters followed by an ellipsis, and an error
text of at most 500 characters — and the result of every other item is
exactly the result of its own independent enrichment. -/
theorem enrich_retry_exhaustion (mr : Nat)
    (oracle : Nat → Nat → Str → Except Str ChunkMetadata) (items : List (Str × Str))
    (k : Nat) (itk : Str × Str) (errs : Nat → Str) (hmr : 1 ≤ mr)
    (hitem : items[k]? = some itk)
    (hfail : ∀ a, a < mr → oracle k a (extractionInput itk.2 itk.1) = .error (errs a)) :
    (enrichAll mr oracle items)[k]? =
        some (emptyMeta, [mkFailureRecord (some k) itk.2 itk.1 (errs (mr - 1))]) ∧
      (failure_log (enrichAll mr oracle items)).filter
          (fun r => decide (r.chunk_index = some k)) =
        [mkFailureRecord (some k) itk.2 itk.1 (errs (mr - 1))] ∧
      (mkFailureRecord (some k) itk.2 itk.1 (errs (mr - 1))).chunk_preview =
        strip (itk.1.take 150) ++ "...".toList ∧
      (strip (itk.1.take 150)).length ≤ 150 ∧
      (mkFailureRecord (some k) itk.2 itk.1 (errs (mr - 1))).error.length ≤ 500 ∧
      ∀ j, j ≠ k → (enrichAll mr oracle items)[j]? =
        (items[j]?).map fun it =>
          enrich_chunk_metadata mr (oracle j) it.1 it.2 (some j) := by
  refine ⟨?_, ?_, rfl, ?_, ?_, ?_⟩
  · rw [enrichAll, enrichAllGo_getElem? mr oracle items 0 k, hitem]
    simp only [Nat.zero_add, Option.map_some']
    rw [enrich_all_fail mr (oracle k) itk.1 itk.2 (some k) errs hmr hfail]
  · rw [enrichAll]
    refine failure_log_filter_at mr oracle k errs hmr items 0 itk (by omega) ?_ hfail
    simpa using hitem
  · calc (strip (itk.1.take 150)).length ≤ (itk.1.take 150).length :=
        strip_length_le _
      _ ≤ 150 := by
        rw [List.length_take]
        omega
  · show ((errs (mr - 1)).take 500).length ≤ 500
    rw [List.length_take]
    omega
  · intro j _
    rw [enrichAll, enrichAllGo_getElem? mr oracle items 0 j]
    simp

/-- Two enrichment items with an oracle that always fails on item 1,
exercising the C7 theorem. -/
def wItems : List (Str × Str) :=
  [("good text".toList, "H0".toList), ("bad text".toList, "H1".toList)]

/-- Attempt oracle for the C7 witness: item 1 raises on every attempt. -/
def wOracle7 : Nat → Nat → Str → Except Str ChunkMetadata := fun i _ _ =>
  if i = 1 then Except.error "boom".toList
  else Except.ok ⟨"sum".toList, ["q1".toList], ["k1".toList]⟩

/-- Concrete witness for C7 with MAX_RETRIES 3: item 1 fails all three
attempts and gets the default empty metadata plus one failure record. -/
theorem enrich_retry_exhaustion_witness :
    (1 ≤ 3) ∧ wItems[1]? = some ("bad text".toList, "H1".toList) ∧
      (enrichAll 3 wOracle7 wItems)[1]? =
        some (emptyMeta,
          [mkFailureRecord (some 1) "H1".toList "bad text".toList "boom".toList]) :=
  ⟨by decide, by decide,
    (enrich_retry_exhaustion 3 wOracle7 wItems 1 ("bad text".toList, "H1".toList)
      (fun _ => "boom".toList) (by decide) (by decide) (fun _ _ => rfl)).1⟩

theorem enrichGo_congr (mr : Nat) (oracle : Nat → Str → Except Str ChunkMetadata)
    (hp : Str) (idx : Option Nat) (ct1 ct2 : Str)
    (h : ct1.take 10000 = ct2.take 10000) :
    ∀ fuel a, enrichGo mr oracle ct1 hp idx fuel a = enrichGo mr oracle ct2 hp idx fuel a := by
  have hinput : extractionInput hp ct1 = extractionInput hp ct2 := by
    unfold extractionInput
    rw [h]
  have h150 : ct1.take 150 = ct2.take 150 := by
    have e1 : ct1.take 150 = (ct1.take 10000).take 150 := by
      rw [List.take_take]
      norm_num
    have e2 : ct2.take 150 = (ct2.take 10000).take 150 := by
      rw [List.take_take]
      norm_num
    rw [e1, e2, h]
  intro fuel
  induction fuel with
  | zero => intro a; rfl
  | succ f ih =>
    intro a
    simp only [enrichGo, hinput]
    by_cases ha : a < mr
    · rw [if_pos ha, if_pos ha]
      cases horacle : oracle a (extractionInput hp ct2) with
      | ok raw => rfl
      | error e =>
        show (if a + 1 < mr then enrichGo mr oracle ct1 hp idx f (a + 1)
            else (emptyMeta, [mkFailureRecord idx hp ct1 e])) =
          (if a + 1 < mr then enrichGo mr oracle ct2 hp idx f (a + 1)
            else (emptyMeta, [mkFailureRecord idx hp ct2 e]))
        by_cases h2 : a + 1 < mr
        · rw [if_pos h2, if_pos h2]
          exact ih (a + 1)
        · rw [if_neg h2, if_neg h2]
          unfold mkFailureRecord
          rw [h150]
    · rw [if_neg ha, if_neg ha]

/-- C9: the metadata-extraction request sees only the first 10000 characters
of the chunk content — any two contents agreeing on their first 10000
characters produce identical results (and identical failure records) for
every oracle — while the stored record's `content` is unchanged by the
metadata merge of `enrich_and_save`. -/
theorem extraction_truncation (mr : Nat) (oracle : Nat → Str → Except Str ChunkMetadata)
    (hp : Str) (idx : Option Nat) (ct1 ct2 : Str)
    (h : ct1.take 10000 = ct2.take 10000) :
    enrich_chunk_metadata mr oracle ct1 hp idx = enrich_chunk_metadata mr oracle ct2 hp idx ∧
      ∀ i md r, (enrich_and_save i md r).content = r.content :=
  ⟨enrichGo_congr mr oracle hp idx ct1 ct2 h mr 0, fun _ _ _ => rfl⟩

/-- Oracle for the C9 witness. -/
def wOracle9 : Nat → Str → Except Str ChunkMetadata := fun _ _ =>
  Except.error "fail".toList

/-- Concrete witness for C9: two contents of 10001 and 10002 characters that
agree on their first 10000 characters are enriched identically. -/
theorem extraction_truncation_witness :
    (List.replicate 10001 'a').take 10000 = (List.replicate 10002 'a').take 10000 ∧
      enrich_chunk_metadata 3 wOracle9 (List.replicate 10001 'a') "H".toList none =
        enrich_chunk_metadata 3 wOracle9 (List.replicate 10002 'a') "H".toList none := by
  have htake : (List.replicate 10001 'a').take 10000 =
      (List.replicate 10002 'a').take 10000 := by
    rw [List.take_replicate, List.take_replicate, min_eq_left (by norm_num),
      min_eq_left (by norm_num)]
  exact ⟨htake,
    (extraction_truncation 3 wOracle9 "H".toList none
      (List.replicate 10001 'a') (List.replicate 10002 'a') htake).1⟩

/-- Model of `np.dot(v1, v2)` on 1-d arrays. -/
def dotList (v1 v2 : List ℝ) : ℝ := ((v1.zip v2).map fun p => p.1 * p.2).sum

/-- Model of `np.linalg.norm(v)`. -/
noncomputable def npNorm (v : List ℝ) : ℝ := Real.sqrt ((v.map fun x => x * x).sum)

/-- Model of `Chunker.cosine_similarity` (chunking.py lines 100-102) with
the IEEE behaviour of the float division made explicit: when the
denominator `‖v1‖ * ‖v2‖` is zero the division is `0.0 / 0.0` (a zero-norm
factor forces a zero dot product) and produces NaN, modelled as `none`;
otherwise the real quotient is produced. -/
noncomputable def cosine_similarity (v1 v2 : List ℝ) : Option ℝ :=
  haveI := Classical.propDecidable (npNorm v1 * npNorm v2 = 0)
  if npNorm v1 * npNorm v2 = 0 then none
  else some (dotList v1 v2 / (npNorm v1 * npNorm v2))

/-- C2 counterexample: at the zero-norm pair `[0], [1]` the cosine
similarity of the code evaluates to NaN (`none`), not to `some 0` — the
claimed value 0 is not produced. -/
theorem cosine_zero_norm_counterexample :
    cosine_similarity [(0 : ℝ)] [(1 : ℝ)] = none ∧ (none : Option ℝ) ≠ some (0 : ℝ) := by
  refine ⟨?_, by simp⟩
  have h0 : npNorm [(0 : ℝ)] = 0 := by
    unfold npNorm
    simp
  unfold cosine_similarity
  rw [if_pos (by rw [h0, zero_mul])]

/-- C2 (amended): whenever either argument has zero norm, the cosine
similarity of the code does not raise an error — it evaluates to NaN (an
undefined, non-numeric float), not to 0. -/
theorem cosine_zero_norm_nan (v1 v2 : List ℝ) (h : npNorm v1 = 0 ∨ npNorm v2 = 0) :
    cosine_similarity v1 v2 = none := by
  unfold cosine_similarity
  rcases h with h | h
  · rw [if_pos (by rw [h, zero_mul])]
  · rw [if_pos (by rw [h, mul_zero])]

/-- Concrete witness for the amended C2 theorem. -/
theorem cosine_zero_norm_nan_witness :
    (npNorm [(0 : ℝ)] = 0 ∨ npNorm [(1 : ℝ)] = 0) ∧
      cosine_similarity [(0 : ℝ)] [(1 : ℝ)] = none := by
  have h0 : npNorm [(0 : ℝ)] = 0 := by
    unfold npNorm
    simp
  exact ⟨Or.inl h0, cosine_zero_norm_nan _ _ (Or.inl h0)⟩

/-- Demonstration chunk for the C3 evaluation. -/
def demoChunk (t : Str) : Chunk := ⟨t, [], [(1, 1)]⟩

/-- C3: evaluation of the run coordinator on two discovered documents of one
chunk each.  `process_file` gives each document's chunks a document-local
0-based `chunk_index` (second conjunct: the only chunk of `b.md` gets 0),
and the persisted `global_chunk_index` is the dense 0-based global sequence;
but `enrich_and_save` (chunking.py line 398) overwrites `chunk_index` with
the global index, so the persisted record of the second document's only
chunk carries `chunk_index = 1` instead of the document-local 0. -/
theorem chunk_index_overwritten :
    ((process_and_save [("a.md".toList, [demoChunk "aa".toList]),
          ("b.md".toList, [demoChunk "bb".toList])] fun _ => emptyMeta).map
        fun r => (r.chunk_index, r.global_chunk_index, r.total_chunks_in_file)) =
      [(0, 0, 1), (1, 1, 1)] ∧
      (process_file "b.md".toList 0 [demoChunk "bb".toList]).map
        (fun r => r.chunk_index) = [0] :=
  ⟨by decide, by decide⟩

/-- C8 counterexample: constructing the chunker with
`min_dynamic_size = 400 > max_dynamic_size = 300` does not report a
configuration error — construction succeeds with the invalid thresholds
stored unchanged. -/
theorem chunker_init_no_validation_counterexample :
    (300 : Nat) < 400 ∧
      Chunker.init 100 10 300 400 500 3 = Except.ok ⟨100, 10, 300, 400, 500, 3⟩ ∧
      Chunker.init 100 10 300 400 500 3 ≠
        Except.error ConfigurationError.invalid_size_thresholds :=
  ⟨by omega, rfl, by intro h; exact Except.noConfusion h⟩

/-- C8 (amended): the constructor performs no validation of the size
thresholds: every parameter combination — including
`MIN_DYNAMIC_SIZE > MAX_DYNAMIC_SIZE` — is accepted and stored unchanged;
the fatal startup configuration error prescribed by the specification is
never raised. -/
theorem chunker_init_no_validation (ebs ens maxd mind lpl mr : Nat) :
    Chunker.init ebs ens maxd mind lpl mr =
      Except.ok ⟨ebs, ens, maxd, mind, lpl, mr⟩ := rfl

end NotebookLM
